import Mathlib

/-!
Verification of the ETF momentum rotation backtest repository.

This file gives a shallow embedding, over exact rational arithmetic, of the
numerical core of the repository:

* the weight-allocation and rebalance steps of `EtfMomentumStrategy`
  (`strategy/etf_momentum.py`, with identical logic in
  `strategy/etf_momentum_backtrader.py`),
* the custom performance metrics of `PerformanceCalculator`
  (`strategy/performance_calculator.py`, the non-empyrical branch),
* the return-series construction of `CustomAnalyzer` (`strategy/analyzer.py`),
* the buy-and-hold baseline `JustBuyHoldStrategy` (`strategy/just_buy_hold.py`).

Real-number operations that have no exact rational counterpart (float `**`
and `sqrt`) are abstracted as explicit function parameters, so every
definition stays executable and the claims about guard behaviour and
algebraic identities are settled independently of the numeric details of
those operations.  Operations that produce NaN in the source (pandas
reductions over empty data, division whose guard failed) are modelled with
`Option`, `none` standing for "no well-defined value (NaN), but no
exception".
-/

/-- Weight allocation step of `EtfMomentumStrategy.next`
(`strategy/etf_momentum.py` lines 118-135): keep the strictly positive
risk-adjusted scores, and if their sum is positive give each selected asset
`score / total`; every other asset keeps weight `0`. -/
def allocateWeights (scores : List ℚ) : List ℚ :=
  let positives := scores.filter (fun v => decide (0 < v))
  if 0 < positives.length then
    let total := positives.sum
    if 0 < total then
      scores.map (fun v => if 0 < v then v / total else 0)
    else
      scores.map (fun _ => (0 : ℚ))
  else
    scores.map (fun _ => (0 : ℚ))

/-- Risk-adjusted score of one asset (`strategy/etf_momentum.py` lines
109-112): `momentum / volatility` when `volatility > 1e-8`, else `0`. -/
def riskAdjustedScore (mom vol : ℚ) : ℚ :=
  if (1 : ℚ) / 100000000 < vol then mom / vol else 0

/-- Python `int()` applied to a rational: truncation toward zero. -/
def truncQ (q : ℚ) : ℤ :=
  if 0 ≤ q then ⌊q⌋ else ⌈q⌉

/-- An order intent emitted by a strategy: a buy or a sell of a number of
shares (always recorded positive, as in `self.buy(size=...)` /
`self.sell(size=-size)`). -/
inductive OrderIntent where
  | buy : ℤ → OrderIntent
  | sell : ℤ → OrderIntent
deriving DecidableEq, Repr

/-- One iteration of the per-asset loop of
`EtfMomentumStrategy._rebalance_portfolio` (`strategy/etf_momentum.py`
lines 154-177): compare the target value against the current position
value; trade only when the difference exceeds the 1% threshold, sizing the
order by truncating `diff / price` toward zero. -/
def rebalanceAsset (total_value target_weight current_position current_price : ℚ) :
    Option OrderIntent :=
  let target_value := total_value * target_weight
  let current_value := current_position * current_price
  let diff_value := target_value - current_value
  let threshold := total_value * (1 / 100)
  if threshold < |diff_value| then
    let size := truncQ (diff_value / current_price)
    if 0 < size then some (OrderIntent.buy size)
    else if size < 0 then some (OrderIntent.sell (-size))
    else none
  else none

/-- Mark-to-market state of one data feed as read inside
`_rebalance_portfolio`: current position size and closing price. -/
structure AssetState where
  position : ℚ
  price : ℚ
deriving DecidableEq, Repr

/-- The full per-asset loop of `_rebalance_portfolio`: one optional order
intent per asset, in the fixed order of the configured data feeds. -/
def rebalanceOrders (total_value : ℚ) (weights : List ℚ) (assets : List AssetState) :
    List (Option OrderIntent) :=
  List.zipWith (fun w a => rebalanceAsset total_value w a.position a.price) weights assets

/-- Per-asset indicator reading in `EtfMomentumStrategy.next` lines
102-116: the momentum and volatility indicator values when their histories
are non-empty (`none` models an empty indicator history). The score is `0`
whenever either history is empty, otherwise the guarded quotient. -/
def adjMomentum (ind : Option ℚ × Option ℚ) : ℚ :=
  match ind with
  | (some mom, some vol) => riskAdjustedScore mom vol
  | _ => 0

/-- Inputs read by one call of `EtfMomentumStrategy.next`. -/
structure NextInput where
  rebalanceCounter : ℕ
  rebalanceDays : ℕ
  barCount : ℕ
  momentumWindow : ℕ
  indicators : List (Option ℚ × Option ℚ)
  totalValue : ℚ
  assets : List AssetState

/-- The orders emitted by one call of `EtfMomentumStrategy.next`
(`strategy/etf_momentum.py` lines 85-138): skip when the rebalance cadence
has not elapsed, skip when fewer bars than the momentum window have been
seen, otherwise score, allocate and rebalance. -/
def nextOrders (inp : NextInput) : List OrderIntent :=
  if inp.rebalanceCounter + 1 < inp.rebalanceDays then []
  else if inp.barCount < inp.momentumWindow then []
  else
    let scores := inp.indicators.map adjMomentum
    let weights := allocateWeights scores
    (rebalanceOrders inp.totalValue weights inp.assets).reduceOption

/-- Mean of a series, as in pandas `Series.mean` over a fully populated
series (`sum / count`). -/
def listMean (xs : List ℚ) : ℚ := xs.sum / (xs.length : ℚ)

/-- Sum of squared deviations from the mean, divided by `count - 1`: the
quantity under the square root of pandas `Series.std` (ddof = 1). -/
def sampleVariance (xs : List ℚ) : ℚ :=
  (xs.map (fun x => (x - listMean xs) ^ 2)).sum / ((xs.length : ℚ) - 1)

/-- pandas `Series.std` (sample standard deviation, ddof = 1), with the
square root abstracted as the parameter `sq`.  On series of length at most
one pandas produces NaN, modelled as `none`. -/
def stddev (sq : ℚ → ℚ) (xs : List ℚ) : Option ℚ :=
  if xs.length ≤ 1 then none else some (sq (sampleVariance xs))

/-- `PerformanceCalculator.annualized_return` (custom branch,
`strategy/performance_calculator.py` lines 22-26), with the float power
operator abstracted as the parameter `pw` (`pw b e` models `b ** e`). -/
def annualized_return (pw : ℚ → ℚ → ℚ) (returns : List ℚ) : ℚ :=
  let total_return := (returns.map (fun r => 1 + r)).prod - 1
  let days := returns.length
  let years : ℚ := (days : ℚ) / 252
  if 0 < years then pw (1 + total_return) (1 / years) - 1 else 0

/-- `PerformanceCalculator.sharpe_ratio` (custom branch, lines 42-45):
excess returns, the `std == 0` guard returning `0`, else
`sqrt(252) * mean / std`; NaN std (series of length at most 1) yields NaN. -/
def sharpe (sq : ℚ → ℚ) (returns : List ℚ) (risk_free : ℚ) : Option ℚ :=
  let excess := returns.map (fun r => r - risk_free / 252)
  match stddev sq excess with
  | none => none
  | some s => if s = 0 then some 0 else some (sq 252 * listMean excess / s)

/-- Cumulative products `acc * x1, acc * x1 * x2, ...`, the recursion
behind pandas `Series.cumprod`. -/
def scanMul (acc : ℚ) : List ℚ → List ℚ
  | [] => []
  | x :: xs => (acc * x) :: scanMul (acc * x) xs

/-- `(1 + returns).cumprod()`: running products of the growth factors. -/
def cumprod1p (returns : List ℚ) : List ℚ :=
  scanMul 1 (returns.map (fun r => 1 + r))

/-- Running maxima seeded with `acc`, the recursion behind pandas
`Series.expanding().max()`. -/
def scanMaxFrom (acc : ℚ) : List ℚ → List ℚ
  | [] => []
  | x :: xs => (max acc x) :: scanMaxFrom (max acc x) xs

/-- pandas `Series.expanding().max()`: entry `t` is the maximum of the
entries up to and including `t`. -/
def runningMax (xs : List ℚ) : List ℚ :=
  match xs with
  | [] => []
  | x :: _ => scanMaxFrom x xs

/-- `PerformanceCalculator.calc_drawdown` (lines 83-88): pointwise
`(cum - running_max) / running_max` over the cumulative growth series. -/
def calc_drawdown (returns : List ℚ) : List ℚ :=
  let cum := cumprod1p returns
  let running_max := runningMax cum
  List.zipWith (fun c m => (c - m) / m) cum running_max

/-- `PerformanceCalculator.max_drawdown` (custom branch, lines 52-56):
the minimum of the drawdown series; pandas `min` of an empty series is
NaN, modelled as `none`. -/
def max_drawdown (returns : List ℚ) : Option ℚ :=
  (calc_drawdown returns).min?

/-- `PerformanceCalculator.calmar_ratio` (lines 59-63):
`annualized_return / |max_drawdown|` guarded by `max_dd != 0`; a NaN
drawdown propagates to a NaN result. -/
def calmar (pw : ℚ → ℚ → ℚ) (returns : List ℚ) : Option ℚ :=
  match max_drawdown returns with
  | none => none
  | some m =>
      let max_dd := |m|
      if max_dd ≠ 0 then some (annualized_return pw returns / max_dd) else some 0

/-- `PerformanceCalculator.sortino_ratio` (custom branch, lines 71-75):
guard on no downside points or zero downside std, else
`sqrt(252) * mean(excess) / std(downside)`. -/
def sortino (sq : ℚ → ℚ) (returns : List ℚ) (required_return : ℚ) : Option ℚ :=
  let excess := returns.map (fun r => r - required_return / 252)
  let downside := excess.filter (fun x => decide (x < 0))
  if downside.length = 0 then some 0
  else match stddev sq downside with
    | none => none
    | some s => if s = 0 then some 0 else some (sq 252 * listMean excess / s)

/-- `PerformanceCalculator.win_rate` (lines 78-80):
`count(returns > 0) / len(returns)`; on an empty series the `0 / 0` is a
numpy NaN (with a warning, not an exception), modelled as `none`. -/
def win_rate (returns : List ℚ) : Option ℚ :=
  if returns.length = 0 then none
  else some (((returns.filter (fun r => decide (0 < r))).length : ℚ) / (returns.length : ℚ))

/-- `CustomAnalyzer.stop` return-series construction
(`strategy/analyzer.py` lines 17-22): `np.diff(values) / values[:-1]`,
i.e. entry `i` is `(values[i+1] - values[i]) / values[i]`. -/
def analyzerReturns (values : List ℚ) : List ℚ :=
  List.zipWith (fun vprev vcur => (vcur - vprev) / vprev) values values.tail

/-- `CustomAnalyzer.stop` date alignment (`strategy/analyzer.py` line 23):
the recorded date list with the first date dropped. -/
def analyzerDates (dates : List ℕ) : List ℕ := dates.tail

/-- Mutable state of `JustBuyHoldStrategy`: whether `self.order` is set
(an order was submitted and not yet notified) and `self.bought`. -/
structure BHState where
  pendingOrder : Bool
  bought : Bool
deriving DecidableEq, Repr

/-- `JustBuyHoldStrategy.__init__`: no pending order, nothing bought. -/
def initBH : BHState := ⟨false, false⟩

/-- Share count computed in `JustBuyHoldStrategy.next` line 36:
`int((cash * 0.99) / price)`. -/
def bhSize (cash price : ℚ) : ℤ := truncQ (cash * (99 / 100) / price)

/-- One call of `JustBuyHoldStrategy.next` (lines 24-42): skip when an
order is pending, skip once bought, otherwise submit a buy of `bhSize`
when it is positive.  Returns the new state and the submitted size. -/
def bhNext (s : BHState) (cash price : ℚ) : BHState × Option ℤ :=
  if s.pendingOrder then (s, none)
  else if s.bought then (s, none)
  else
    let size := bhSize cash price
    if 0 < size then ({ s with pendingOrder := true }, some size)
    else (s, none)

/-- Events driving `JustBuyHoldStrategy`: a price bar (with the broker
cash and first-feed close read in `next`), a completed-buy notification
(`notify_order` sets `bought = True` and clears `self.order`), and a
cancel/margin/reject notification (clears `self.order` only). -/
inductive BHEvent where
  | bar : ℚ → ℚ → BHEvent
  | orderCompleted : BHEvent
  | orderFailed : BHEvent
deriving DecidableEq, Repr

/-- Transition of `JustBuyHoldStrategy` on one event. -/
def bhStep (s : BHState) : BHEvent → BHState × Option ℤ
  | BHEvent.bar cash price => bhNext s cash price
  | BHEvent.orderCompleted => (⟨false, true⟩, none)
  | BHEvent.orderFailed => ({ s with pendingOrder := false }, none)

/-- Run `JustBuyHoldStrategy` over an event trace, collecting the sizes of
the buy orders it submits. -/
def bhRun (s : BHState) : List BHEvent → List ℤ
  | [] => []
  | e :: es =>
    match bhStep s e with
    | (s2, some sz) => sz :: bhRun s2 es
    | (s2, none) => bhRun s2 es

/-- An event trace in which no submitted order is cancelled, margin-called
or rejected (every submitted order eventually completes). -/
def noFailure (events : List BHEvent) : Prop :=
  ∀ e ∈ events, e ≠ BHEvent.orderFailed

instance : DecidablePred noFailure := fun events =>
  inferInstanceAs (Decidable (∀ e ∈ events, e ≠ BHEvent.orderFailed))

/-! ## Helper lemmas -/

theorem mem_filter_pos {x : ℚ} {l : List ℚ} :
    x ∈ l.filter (fun v => decide (0 < v)) ↔ x ∈ l ∧ 0 < x := by
  simp [List.mem_filter]

theorem sum_map_div_filter (t : ℚ) (l : List ℚ) :
    (l.map (fun v => if 0 < v then v / t else 0)).sum
      = (l.filter (fun v => decide (0 < v))).sum / t := by
  induction l with
  | nil => simp
  | cons x xs ih =>
    by_cases hx : 0 < x
    · simp [List.filter_cons, hx, ih, add_div]
    · simp [List.filter_cons, hx, ih]

theorem positives_sum_pos {l : List ℚ}
    (h : l.filter (fun v => decide (0 < v)) ≠ []) :
    0 < (l.filter (fun v => decide (0 < v))).sum := by
  refine List.sum_pos _ ?_ h
  intro x hx
  exact (mem_filter_pos.mp hx).2

theorem allocateWeights_of_pos {scores : List ℚ}
    (h : scores.filter (fun v => decide (0 < v)) ≠ []) :
    allocateWeights scores
      = scores.map
          (fun v => if 0 < v then v / (scores.filter (fun v => decide (0 < v))).sum else 0) := by
  have hlen : 0 < (scores.filter (fun v => decide (0 < v))).length :=
    List.length_pos.mpr h
  have hsum := positives_sum_pos h
  simp only [allocateWeights]
  rw [if_pos hlen, if_pos hsum]

theorem allocateWeights_of_none {scores : List ℚ}
    (h : scores.filter (fun v => decide (0 < v)) = []) :
    allocateWeights scores = scores.map (fun _ => (0 : ℚ)) := by
  simp only [allocateWeights, h]
  simp

theorem filter_pos_eq_nil_of_forall {scores : List ℚ}
    (h : ∀ v ∈ scores, ¬ 0 < v) :
    scores.filter (fun v => decide (0 < v)) = [] := by
  rw [List.filter_eq_nil_iff]
  intro v hv
  simpa using h v hv

/-- Claim C1: for every score list, the target weights produced by the
weight-allocation step are all non-negative; they sum to `1` whenever at
least one score is strictly positive; and when no score is strictly
positive every weight is `0` and the sum is `0`. -/
theorem allocateWeights_spec (scores : List ℚ) :
    (∀ w ∈ allocateWeights scores, 0 ≤ w) ∧
    ((∃ v ∈ scores, 0 < v) → (allocateWeights scores).sum = 1) ∧
    ((∀ v ∈ scores, ¬ 0 < v) →
      (∀ w ∈ allocateWeights scores, w = 0) ∧ (allocateWeights scores).sum = 0) := by
  by_cases h : scores.filter (fun v => decide (0 < v)) = []
  · rw [allocateWeights_of_none h]
    refine ⟨?_, ?_, ?_⟩
    · intro w hw
      rcases List.mem_map.mp hw with ⟨v, _, rfl⟩
      exact le_refl 0
    · rintro ⟨v, hv, hvpos⟩
      exact absurd (mem_filter_pos.mpr ⟨hv, hvpos⟩) (by simp [h])
    · intro _
      constructor
      · intro w hw
        rcases List.mem_map.mp hw with ⟨v, _, rfl⟩
        rfl
      · exact List.sum_eq_zero (by
          intro w hw
          rcases List.mem_map.mp hw with ⟨v, _, rfl⟩
          rfl)
  · have htot := positives_sum_pos h
    rw [allocateWeights_of_pos h]
    refine ⟨?_, ?_, ?_⟩
    · intro w hw
      rcases List.mem_map.mp hw with ⟨v, _, rfl⟩
      by_cases hv : 0 < v
      · simp only [if_pos hv]
        exact div_nonneg hv.le htot.le
      · simp [if_neg hv]
    · intro _
      rw [sum_map_div_filter]
      exact div_self (ne_of_gt htot)
    · intro hall
      exact absurd (filter_pos_eq_nil_of_forall hall) h

/-- Witness for C1, at the concrete score list of spec scenario 8.5:
scores `[2, -1/2, 1]` have a strictly positive entry and the resulting
weights `[2/3, 0, 1/3]` sum to `1`. -/
theorem allocateWeights_spec_witness :
    (∃ v ∈ [(2 : ℚ), -1/2, 1], 0 < v) ∧
      (allocateWeights [(2 : ℚ), -1/2, 1]).sum = 1 ∧
      allocateWeights [(2 : ℚ), -1/2, 1] = [2/3, 0, 1/3] := by
  refine ⟨⟨2, by simp, by norm_num⟩, ?_, by norm_num [allocateWeights, List.filter]⟩
  exact (allocateWeights_spec [(2 : ℚ), -1/2, 1]).2.1 ⟨2, by simp, by norm_num⟩

/-- Claim C2: in the rebalance step, writing `diff` for
`total_value * weight - current_value` and `threshold` for
`total_value * 0.01`: no order is emitted when `|diff| ≤ threshold`;
otherwise the share count is `diff / price` truncated toward zero, a buy
of that many shares when positive, a sell of its negation when negative,
and no order when the truncation gives `0`.  In particular, with
`total_value = 100000` (and price `100`, position `0`), a `diff` of `500`
produces no order and a `diff` of `1500` produces an order. -/
theorem rebalanceAsset_spec (total weight position price : ℚ) :
    (|total * weight - position * price| ≤ total * (1 / 100) →
      rebalanceAsset total weight position price = none) ∧
    (total * (1 / 100) < |total * weight - position * price| →
      (0 < truncQ ((total * weight - position * price) / price) →
        rebalanceAsset total weight position price
          = some (OrderIntent.buy (truncQ ((total * weight - position * price) / price)))) ∧
      (truncQ ((total * weight - position * price) / price) < 0 →
        rebalanceAsset total weight position price
          = some (OrderIntent.sell (-truncQ ((total * weight - position * price) / price)))) ∧
      (truncQ ((total * weight - position * price) / price) = 0 →
        rebalanceAsset total weight position price = none)) ∧
    rebalanceAsset 100000 (1 / 200) 0 100 = none ∧
    rebalanceAsset 100000 (3 / 200) 0 100 = some (OrderIntent.buy 15) := by
  refine ⟨?_, ?_, ?_, ?_⟩
  · intro h
    simp only [rebalanceAsset]
    rw [if_neg (not_lt.mpr h)]
  · intro h
    refine ⟨?_, ?_, ?_⟩
    · intro hpos
      simp only [rebalanceAsset]
      rw [if_pos h, if_pos hpos]
    · intro hneg
      simp only [rebalanceAsset]
      rw [if_pos h, if_neg (by omega), if_pos hneg]
    · intro hzero
      simp only [rebalanceAsset]
      rw [if_pos h, if_neg (by omega), if_neg (by omega)]
  · norm_num [rebalanceAsset]
  · norm_num [rebalanceAsset, truncQ]

/-- Witness for C2: at `total_value = 100000`, `weight = 3/200`, zero
position and price `100`, the difference `1500` exceeds the 1% threshold
`1000` and a buy of `15` shares is emitted. -/
theorem rebalanceAsset_spec_witness :
    (100000 : ℚ) * (1 / 100) < |(100000 : ℚ) * (3 / 200) - 0 * 100| ∧
      rebalanceAsset 100000 (3 / 200) 0 100 = some (OrderIntent.buy 15) := by
  have h1 : (100000 : ℚ) * (1 / 100) < |(100000 : ℚ) * (3 / 200) - 0 * 100| := by
    norm_num
  have h2 : truncQ (((100000 : ℚ) * (3 / 200) - 0 * 100) / 100) = 15 := by
    norm_num [truncQ]
  refine ⟨h1, ?_⟩
  have h3 := ((rebalanceAsset_spec 100000 (3 / 200) 0 100).2.1 h1).1 (by rw [h2]; norm_num)
  rw [h3, h2]

/-- Claim C4: the per-asset risk-adjusted score is `momentum / volatility`
exactly when `volatility > 1e-8`, and `0` whenever `volatility ≤ 1e-8`,
so the quotient is only ever formed with a divisor above `1e-8`. -/
theorem riskAdjustedScore_spec (mom vol : ℚ) :
    ((1 : ℚ) / 100000000 < vol → riskAdjustedScore mom vol = mom / vol) ∧
    (vol ≤ (1 : ℚ) / 100000000 → riskAdjustedScore mom vol = 0) := by
  constructor
  · intro h
    unfold riskAdjustedScore
    rw [if_pos h]
  · intro h
    unfold riskAdjustedScore
    rw [if_neg (not_lt.mpr h)]

/-- Witness for C4: a volatility of `1/100` is above the guard and gives
score `momentum / volatility = 2`; a zero volatility gives score `0`. -/
theorem riskAdjustedScore_spec_witness :
    ((1 : ℚ) / 100000000 < 1 / 100 ∧ riskAdjustedScore (1 / 50) (1 / 100) = 2) ∧
      ((0 : ℚ) ≤ 1 / 100000000 ∧ riskAdjustedScore (1 / 50) 0 = 0) := by
  refine ⟨⟨by norm_num, ?_⟩, ⟨by norm_num, ?_⟩⟩
  · rw [(riskAdjustedScore_spec (1 / 50) (1 / 100)).1 (by norm_num)]
    norm_num
  · exact (riskAdjustedScore_spec (1 / 50) 0).2 (by norm_num)

/-- Claim C8: for a non-empty return series the code's
`(1 + total_return) ** (1 / years) - 1` (with `total_return`
the product of growth factors minus one and `years = n / 252`) equals the
reference formula `(prod (1 + r)) ** (252 / n) - 1`, for any semantics
`pw` of the float power operator; on an empty series it returns `0`. -/
theorem annualized_return_spec (pw : ℚ → ℚ → ℚ) (rs : List ℚ) (h : rs ≠ []) :
    annualized_return pw rs
      = pw ((rs.map (fun r => 1 + r)).prod) (252 / (rs.length : ℚ)) - 1 ∧
    annualized_return pw [] = 0 := by
  constructor
  · have hn : 0 < rs.length := List.length_pos.mpr h
    have hy : (0 : ℚ) < (rs.length : ℚ) / 252 :=
      div_pos (by exact_mod_cast hn) (by norm_num)
    have e1 : 1 + ((rs.map (fun r => 1 + r)).prod - 1) = (rs.map (fun r => 1 + r)).prod := by
      ring
    have e2 : (1 : ℚ) / ((rs.length : ℚ) / 252) = 252 / (rs.length : ℚ) :=
      one_div_div _ _
    simp only [annualized_return]
    rw [if_pos hy, e1, e2]
  · simp [annualized_return]

/-- Witness for C8: for the one-element series `[1]` and the concrete
power semantics `pw a b = a * b`, both sides evaluate to `503`. -/
theorem annualized_return_spec_witness :
    ([(1 : ℚ)] ≠ []) ∧ annualized_return (fun a b => a * b) [(1 : ℚ)] = 503 := by
  refine ⟨by simp, ?_⟩
  rw [(annualized_return_spec (fun a b => a * b) [(1 : ℚ)] (by simp)).1]
  norm_num

/-- Counterexample for C3: on an empty return series `max_drawdown`
evaluates pandas `min` of an empty series, which is NaN (`none` in the
embedding), not `0` as the claim states. -/
theorem max_drawdown_empty_not_zero :
    max_drawdown ([] : List ℚ) = none ∧ max_drawdown ([] : List ℚ) ≠ some 0 := by
  constructor <;> simp [max_drawdown, calc_drawdown, cumprod1p, scanMul, runningMax]

/-- Claim C3 (amended): the zero-denominator guards of
`PerformanceCalculator` return `0` instead of raising — `sharpe_ratio`
when the standard deviation of the excess returns is `0`, `calmar_ratio`
when `max_drawdown` is `0`, `sortino_ratio` when there is no downside
point or the downside standard deviation is `0` — and on an empty series
`max_drawdown` and `win_rate` yield NaN (`none`) without raising (the
original claim said `max_drawdown` of an empty series is `0`; the code
yields NaN there). -/
theorem performance_zero_guards (sq : ℚ → ℚ) (pw : ℚ → ℚ → ℚ) (rs : List ℚ) (rf rq : ℚ)
    (h1 : stddev sq (rs.map (fun r => r - rf / 252)) = some 0)
    (h2 : max_drawdown rs = some 0)
    (h3 : (rs.map (fun r => r - rq / 252)).filter (fun x => decide (x < 0)) = [] ∨
          stddev sq ((rs.map (fun r => r - rq / 252)).filter (fun x => decide (x < 0)))
            = some 0) :
    sharpe sq rs rf = some 0 ∧
    calmar pw rs = some 0 ∧
    sortino sq rs rq = some 0 ∧
    max_drawdown ([] : List ℚ) = none ∧
    win_rate ([] : List ℚ) = none := by
  refine ⟨?_, ?_, ?_, ?_, ?_⟩
  · simp [sharpe, h1]
  · simp [calmar, h2]
  · rcases h3 with h3 | h3
    · simp [sortino, h3]
    · by_cases hd : ((rs.map (fun r => r - rq / 252)).filter (fun x => decide (x < 0))).length = 0
      · simp [sortino, hd]
      · simp [sortino, hd, h3]
  · simp [max_drawdown, calc_drawdown, cumprod1p, scanMul, runningMax]
  · simp [win_rate]

/-- Witness for C3, at the flat series `[0, 0]` (spec scenario 8.8), with
the identity as the square-root semantics: every guard hypothesis is
satisfied and every guarded metric reports `some 0`. -/
theorem performance_zero_guards_witness :
    (stddev (fun q => q) ([(0 : ℚ), 0].map (fun r => r - 0 / 252)) = some 0 ∧
        max_drawdown [(0 : ℚ), 0] = some 0) ∧
      sharpe (fun q => q) [(0 : ℚ), 0] 0 = some 0 ∧
      calmar (fun a b => a * b) [(0 : ℚ), 0] = some 0 ∧
      sortino (fun q => q) [(0 : ℚ), 0] 0 = some 0 := by
  have h1 : stddev (fun q => q) ([(0 : ℚ), 0].map (fun r => r - 0 / 252)) = some 0 := by
    norm_num [stddev, sampleVariance, listMean]
  have h2 : max_drawdown [(0 : ℚ), 0] = some 0 := by
    norm_num [max_drawdown, calc_drawdown, cumprod1p, scanMul, runningMax, scanMaxFrom,
      List.min?]
  have h3 : ([(0 : ℚ), 0].map (fun r => r - 0 / 252)).filter (fun x => decide (x < 0)) = [] := by
    norm_num [List.filter]
  have hall := performance_zero_guards (fun q => q) (fun a b => a * b) [(0 : ℚ), 0] 0 0
    h1 h2 (Or.inl h3)
  exact ⟨⟨h1, h2⟩, hall.1, hall.2.1, hall.2.2.1⟩

theorem scanMul_length (acc : ℚ) (l : List ℚ) : (scanMul acc l).length = l.length := by
  induction l generalizing acc with
  | nil => rfl
  | cons x xs ih => simp [scanMul, ih]

theorem scanMaxFrom_length (acc : ℚ) (l : List ℚ) :
    (scanMaxFrom acc l).length = l.length := by
  induction l generalizing acc with
  | nil => rfl
  | cons x xs ih => simp [scanMaxFrom, ih]

theorem runningMax_length (xs : List ℚ) : (runningMax xs).length = xs.length := by
  cases xs with
  | nil => rfl
  | cons x rest => simp [runningMax, scanMaxFrom_length]

theorem cumprod1p_length (rs : List ℚ) : (cumprod1p rs).length = rs.length := by
  simp [cumprod1p, scanMul_length]

theorem calc_drawdown_length (rs : List ℚ) : (calc_drawdown rs).length = rs.length := by
  simp [calc_drawdown, List.length_zipWith, cumprod1p_length, runningMax_length]

theorem scanMul_pos {l : List ℚ} {acc : ℚ} (ha : 0 < acc) (hl : ∀ x ∈ l, 0 < x) :
    ∀ c ∈ scanMul acc l, 0 < c := by
  induction l generalizing acc with
  | nil =>
    intro c hc
    simp [scanMul] at hc
  | cons x xs ih =>
    intro c hc
    have hx : 0 < x := hl x (by simp)
    rw [scanMul, List.mem_cons] at hc
    rcases hc with rfl | hc
    · exact mul_pos ha hx
    · exact ih (mul_pos ha hx) (fun y hy => hl y (by simp [hy])) c hc

theorem zip_scanMaxFrom_nonpos {l : List ℚ} {acc : ℚ} (ha : 0 < acc)
    (hl : ∀ x ∈ l, 0 < x) :
    ∀ d ∈ List.zipWith (fun c m => (c - m) / m) l (scanMaxFrom acc l), d ≤ 0 := by
  induction l generalizing acc with
  | nil =>
    intro d hd
    simp at hd
  | cons x xs ih =>
    intro d hd
    have hx : 0 < x := hl x (by simp)
    rw [scanMaxFrom, List.zipWith_cons_cons, List.mem_cons] at hd
    rcases hd with rfl | hd
    · refine div_nonpos_iff.mpr (Or.inr ⟨sub_nonpos.mpr (le_max_right acc x), ?_⟩)
      exact (lt_max_iff.mpr (Or.inl ha)).le
    · exact ih (lt_max_iff.mpr (Or.inl ha)) (fun y hy => hl y (by simp [hy])) d hd

theorem calc_drawdown_mem_nonpos {rs : List ℚ} (h : ∀ r ∈ rs, -1 < r) :
    ∀ d ∈ calc_drawdown rs, d ≤ 0 := by
  have hpos : ∀ c ∈ cumprod1p rs, 0 < c := by
    refine scanMul_pos one_pos ?_
    intro x hx
    rcases List.mem_map.mp hx with ⟨r, hr, rfl⟩
    linarith [h r hr]
  intro d hd
  rw [calc_drawdown] at hd
  cases hcum : cumprod1p rs with
  | nil => simp [hcum] at hd
  | cons y rest =>
    rw [hcum, runningMax] at hd
    have hy : 0 < y := hpos y (by rw [hcum]; simp)
    have hall : ∀ x ∈ y :: rest, 0 < x := by
      intro x hx
      exact hpos x (by rw [hcum]; exact hx)
    exact zip_scanMaxFrom_nonpos hy hall d hd

/-- Counterexample for C5: for the return series `[-2, 1/2]` (a return
below `-1`, so the cumulative product goes negative) the drawdown series
is `[0, 1/2]`, whose second entry is strictly positive — the pointwise
`≤ 0` part of the claim fails without a restriction on the returns. -/
theorem calc_drawdown_nonpos_fails :
    calc_drawdown [(-2 : ℚ), 1 / 2] = [0, 1 / 2] ∧
      ¬ (∀ d ∈ calc_drawdown [(-2 : ℚ), 1 / 2], d ≤ 0) := by
  have h : calc_drawdown [(-2 : ℚ), 1 / 2] = [0, 1 / 2] := by
    norm_num [calc_drawdown, cumprod1p, scanMul, runningMax, scanMaxFrom, max_def]
  refine ⟨h, ?_⟩
  intro hall
  have := hall (1 / 2) (by rw [h]; simp)
  norm_num at this

/-- Claim C5 (amended): for every return series whose returns all exceed
`-1` (so the cumulative product stays positive — the original claim,
stated for every series, fails once a return at or below `-1` makes the
running maximum non-positive), the drawdown series of `calc_drawdown` is
pointwise `≤ 0`, equals `0` at every index where the cumulative product
attains its running maximum, and has the same length as the input
series. -/
theorem calc_drawdown_spec (rs : List ℚ) (h : ∀ r ∈ rs, -1 < r) :
    (calc_drawdown rs).length = rs.length ∧
    (∀ d ∈ calc_drawdown rs, d ≤ 0) ∧
    (∀ (i : ℕ) (hc : i < (cumprod1p rs).length)
        (hm : i < (runningMax (cumprod1p rs)).length)
        (hd : i < (calc_drawdown rs).length),
      (cumprod1p rs)[i] = (runningMax (cumprod1p rs))[i] →
        (calc_drawdown rs)[i] = 0) := by
  refine ⟨calc_drawdown_length rs, calc_drawdown_mem_nonpos h, ?_⟩
  intro i hc hm hd heq
  have : (calc_drawdown rs)[i]
      = ((cumprod1p rs)[i] - (runningMax (cumprod1p rs))[i])
          / (runningMax (cumprod1p rs))[i] := by
    simp only [calc_drawdown]
    rw [List.getElem_zipWith]
  rw [this, heq, sub_self, zero_div]

/-- Witness for C5: the series `[1/10, -1/20]` has all returns above `-1`;
its drawdown series has length `2`, is pointwise `≤ 0`, and its first
entry (where the cumulative product attains its running maximum) is `0`. -/
theorem calc_drawdown_spec_witness :
    (∀ r ∈ [(1 : ℚ) / 10, -1 / 20], -1 < r) ∧
      (calc_drawdown [(1 : ℚ) / 10, -1 / 20]).length = 2 ∧
      (∀ d ∈ calc_drawdown [(1 : ℚ) / 10, -1 / 20], d ≤ 0) := by
  have h : ∀ r ∈ [(1 : ℚ) / 10, -1 / 20], -1 < r := by
    intro r hr
    rcases List.mem_cons.mp hr with rfl | hr
    · norm_num
    · rcases List.mem_cons.mp hr with rfl | hr
      · norm_num
      · simp at hr
  have hs := calc_drawdown_spec [(1 : ℚ) / 10, -1 / 20] h
  exact ⟨h, hs.1, hs.2.1⟩

/-- Claim C6: on a bar where fewer bars than the momentum window have been
seen, `next` returns before trading, so no buy or sell order is emitted;
and an asset whose indicator history is still empty gets score `0` (both
warm-up situations are silent skips, not errors). -/
theorem warmup_no_orders (inp : NextInput) (h : inp.barCount < inp.momentumWindow) :
    nextOrders inp = [] ∧
    ∀ ind : Option ℚ × Option ℚ, ind.1 = none ∨ ind.2 = none → adjMomentum ind = 0 := by
  constructor
  · unfold nextOrders
    by_cases hc : inp.rebalanceCounter + 1 < inp.rebalanceDays
    · rw [if_pos hc]
    · rw [if_neg hc, if_pos h]
  · rintro ⟨m, v⟩ (h1 | h2)
    · simp only at h1
      subst h1
      cases v <;> rfl
    · simp only at h2
      subst h2
      cases m <;> rfl

/-- Witness for C6: with `barCount = 5` below a momentum window of `20`,
a concrete `next` input produces no orders. -/
theorem warmup_no_orders_witness :
    (5 < 20) ∧
      nextOrders ⟨0, 1, 5, 20, [(none, none)], 100000, [⟨0, 100⟩]⟩ = [] := by
  exact ⟨by norm_num,
    (warmup_no_orders ⟨0, 1, 5, 20, [(none, none)], 100000, [⟨0, 100⟩]⟩ (by norm_num)).1⟩

/-- Claim C7: the weight-allocation and rebalance computations are
deterministic functions of their inputs — running either twice on equal
inputs (same scores, total value, weights, assets, in the same order)
gives equal outputs — and weight allocation has no hidden iteration-order
dependence: permuting the score list permutes the weight list the same
way (each asset's weight depends only on its own score and the sum of
the positive scores). -/
theorem allocation_rebalance_deterministic
    (s1 s2 p1 p2 : List ℚ) (tv1 tv2 : ℚ) (w1 w2 : List ℚ) (a1 a2 : List AssetState)
    (hs : s1 = s2) (htv : tv1 = tv2) (hw : w1 = w2) (ha : a1 = a2)
    (hperm : p1.Perm p2) :
    allocateWeights s1 = allocateWeights s2 ∧
    rebalanceOrders tv1 w1 a1 = rebalanceOrders tv2 w2 a2 ∧
    (allocateWeights p1).Perm (allocateWeights p2) := by
  refine ⟨by rw [hs], by rw [htv, hw, ha], ?_⟩
  have hf := hperm.filter (fun v => decide (0 < v))
  by_cases hnil : p1.filter (fun v => decide (0 < v)) = []
  · have hnil2 : p2.filter (fun v => decide (0 < v)) = [] := by
      rw [hnil] at hf
      exact (hf.symm).eq_nil
    rw [allocateWeights_of_none hnil, allocateWeights_of_none hnil2]
    exact hperm.map _
  · have hnil2 : p2.filter (fun v => decide (0 < v)) ≠ [] := by
      intro hc
      rw [hc] at hf
      exact hnil hf.eq_nil
    rw [allocateWeights_of_pos hnil, allocateWeights_of_pos hnil2, hf.sum_eq]
    exact hperm.map _

/-- Witness for C7: equal inputs give equal outputs, and the swapped
score list `[2, 1]` yields a permutation of the weights of `[1, 2]`. -/
theorem allocation_rebalance_deterministic_witness :
    ([(1 : ℚ), 2].Perm [2, 1]) ∧
      allocateWeights [(1 : ℚ)] = allocateWeights [(1 : ℚ)] ∧
      (allocateWeights [(1 : ℚ), 2]).Perm (allocateWeights [(2 : ℚ), 1]) := by
  have hp : ([(1 : ℚ), 2]).Perm [2, 1] := List.Perm.swap 2 1 []
  have h := allocation_rebalance_deterministic [(1 : ℚ)] [(1 : ℚ)] [(1 : ℚ), 2] [(2 : ℚ), 1]
    1 1 [] [] [] [] rfl rfl rfl rfl hp
  exact ⟨hp, h.1, h.2.2⟩

/-- Claim C9: from `k ≥ 1` recorded portfolio values the analyzer builds a
return series of exactly `k - 1` entries with
`returns[i] = (values[i+1] - values[i]) / values[i]`, and keeps the
recorded dates minus the first one, so returns and dates stay aligned
1:1. -/
theorem analyzer_spec (values : List ℚ) (dates : List ℕ)
    (h : 1 ≤ values.length) (hd : dates.length = values.length) :
    (analyzerReturns values).length = values.length - 1 ∧
    (∀ (i : ℕ) (h1 : i + 1 < values.length) (h0 : i < values.length)
        (hr : i < (analyzerReturns values).length),
      (analyzerReturns values)[i] = (values[i + 1] - values[i]) / values[i]) ∧
    analyzerDates dates = dates.tail ∧
    (analyzerDates dates).length = (analyzerReturns values).length := by
  have hlen : (analyzerReturns values).length = values.length - 1 := by
    simp only [analyzerReturns, List.length_zipWith, List.length_tail]
    omega
  refine ⟨hlen, ?_, rfl, ?_⟩
  · intro i h1 h0 hr
    simp only [analyzerReturns]
    rw [List.getElem_zipWith, List.getElem_tail]
  · simp only [analyzerDates, List.length_tail, hd, hlen]

/-- Witness for C9: from the two recorded values `[100, 110]` (and dates
`[0, 1]`) the analyzer produces the single return `1/10`. -/
theorem analyzer_spec_witness :
    (1 ≤ ([(100 : ℚ), 110] : List ℚ).length
        ∧ ([0, 1] : List ℕ).length = ([(100 : ℚ), 110] : List ℚ).length) ∧
      (analyzerReturns [(100 : ℚ), 110]).length = 1 ∧
      analyzerReturns [(100 : ℚ), 110] = [1 / 10] := by
  have h := analyzer_spec [(100 : ℚ), 110] [0, 1] (by norm_num) (by norm_num)
  refine ⟨⟨by norm_num, by norm_num⟩, h.1, ?_⟩
  norm_num [analyzerReturns, List.zipWith]

theorem noFailure_cons {e : BHEvent} {es : List BHEvent} (h : noFailure (e :: es)) :
    noFailure es :=
  fun x hx => h x (List.mem_cons_of_mem e hx)

theorem bhRun_of_bought : ∀ (events : List BHEvent) (s : BHState),
    s.bought = true → bhRun s events = [] := by
  intro events
  induction events with
  | nil =>
    intro s _
    rfl
  | cons e es ih =>
    intro s hs
    cases e with
    | bar cash price =>
      have hstep : bhStep s (BHEvent.bar cash price) = (s, none) := by
        simp only [bhStep, bhNext]
        by_cases hp : s.pendingOrder = true
        · rw [if_pos hp]
        · rw [if_neg hp, if_pos hs]
      simp only [bhRun, hstep]
      exact ih s hs
    | orderCompleted =>
      simp only [bhRun, bhStep]
      exact ih ⟨false, true⟩ rfl
    | orderFailed =>
      simp only [bhRun, bhStep]
      exact ih _ hs

theorem bhRun_pending : ∀ (events : List BHEvent) (s : BHState),
    noFailure events → s.pendingOrder = true → bhRun s events = [] := by
  intro events
  induction events with
  | nil =>
    intro s _ _
    rfl
  | cons e es ih =>
    intro s hnf hp
    cases e with
    | bar cash price =>
      have hstep : bhStep s (BHEvent.bar cash price) = (s, none) := by
        simp only [bhStep, bhNext]
        rw [if_pos hp]
      simp only [bhRun, hstep]
      exact ih s (noFailure_cons hnf) hp
    | orderCompleted =>
      simp only [bhRun, bhStep]
      exact bhRun_of_bought es ⟨false, true⟩ rfl
    | orderFailed =>
      exact absurd rfl (hnf BHEvent.orderFailed (List.mem_cons_self _ _))

theorem bhRun_length_le_one : ∀ (events : List BHEvent) (s : BHState),
    noFailure events → (bhRun s events).length ≤ 1 := by
  intro events
  induction events with
  | nil =>
    intro s _
    simp [bhRun]
  | cons e es ih =>
    intro s hnf
    have hnf2 : noFailure es := noFailure_cons hnf
    cases e with
    | bar cash price =>
      by_cases hp : s.pendingOrder = true
      · have hstep : bhStep s (BHEvent.bar cash price) = (s, none) := by
          simp only [bhStep, bhNext]
          rw [if_pos hp]
        simp only [bhRun, hstep]
        exact ih s hnf2
      · by_cases hb : s.bought = true
        · have hstep : bhStep s (BHEvent.bar cash price) = (s, none) := by
            simp only [bhStep, bhNext]
            rw [if_neg hp, if_pos hb]
          simp only [bhRun, hstep]
          exact ih s hnf2
        · by_cases hsz : 0 < bhSize cash price
          · have hstep : bhStep s (BHEvent.bar cash price)
                = ({ s with pendingOrder := true }, some (bhSize cash price)) := by
              simp only [bhStep, bhNext]
              rw [if_neg hp, if_neg hb, if_pos hsz]
            simp only [bhRun, hstep]
            rw [bhRun_pending es _ hnf2 rfl]
            simp
          · have hstep : bhStep s (BHEvent.bar cash price) = (s, none) := by
              simp only [bhStep, bhNext]
              rw [if_neg hp, if_neg hb, if_neg hsz]
            simp only [bhRun, hstep]
            exact ih s hnf2
    | orderCompleted =>
      simp only [bhRun, bhStep]
      rw [bhRun_of_bought es ⟨false, true⟩ rfl]
      simp
    | orderFailed =>
      exact absurd rfl (hnf BHEvent.orderFailed (List.mem_cons_self _ _))

theorem bhRun_skip_nonpos : ∀ (pre l : List BHEvent),
    (∀ e ∈ pre, ∃ c p, e = BHEvent.bar c p ∧ bhSize c p ≤ 0) →
    bhRun initBH (pre ++ l) = bhRun initBH l := by
  intro pre
  induction pre with
  | nil =>
    intro l _
    rfl
  | cons e pre2 ih =>
    intro l hpre
    rcases hpre e (List.mem_cons_self _ _) with ⟨c, p, rfl, hsz⟩
    have hns : ¬ 0 < bhSize c p := not_lt.mpr hsz
    have hstep : bhStep initBH (BHEvent.bar c p) = (initBH, none) := by
      simp [bhStep, bhNext, initBH, hns]
    simp only [List.cons_append, bhRun, hstep]
    exact ih l (fun x hx => hpre x (List.mem_cons_of_mem _ hx))

/-- Counterexample for C10: when the single submitted order is rejected
(cancel/margin/reject notification), `notify_order` clears `self.order`
while `self.bought` stays false, so the strategy submits a second buy
order on the next bar — with cash `100` and price `1` the run
`bar, reject, bar` submits two orders of `99` shares, refuting "at most
one buy order per run" as an unconditional statement. -/
theorem justBuyHold_two_orders :
    bhRun initBH [BHEvent.bar 100 1, BHEvent.orderFailed, BHEvent.bar 100 1] = [99, 99] ∧
      ¬ ((bhRun initBH
            [BHEvent.bar 100 1, BHEvent.orderFailed, BHEvent.bar 100 1]).length ≤ 1) := by
  have hsz : bhSize 100 1 = 99 := by
    norm_num [bhSize, truncQ]
  have h : bhRun initBH [BHEvent.bar 100 1, BHEvent.orderFailed, BHEvent.bar 100 1]
      = [99, 99] := by
    have h1 : bhStep initBH (BHEvent.bar 100 1) = (⟨true, false⟩, some 99) := by
      simp [bhStep, bhNext, initBH, hsz]
    have h2 : bhStep ⟨true, false⟩ BHEvent.orderFailed = (initBH, none) := by
      simp [bhStep, initBH]
    simp only [bhRun, h1, h2]
  refine ⟨h, ?_⟩
  rw [h]
  norm_num

/-- Claim C10 (amended): provided every submitted order completes (no
cancel/margin/reject notification), the buy-and-hold strategy submits at
most one buy order per run; skipping every bar whose computed size
`int(0.99 * cash / price)` is non-positive, it submits exactly that size
on the first bar where the size is positive and nothing afterwards; and
once any order has completed (`bought` set) it never submits again, with
no assumption on later events.  (The original unconditional "at most one
buy order per run" fails when an order is rejected: the code then clears
`self.order` with `bought` still false and retries on a later bar.) -/
theorem justBuyHold_spec (events pre rest : List BHEvent) (c p : ℚ) (s : BHState)
    (hev : noFailure events)
    (hpre : ∀ e ∈ pre, ∃ c2 p2, e = BHEvent.bar c2 p2 ∧ bhSize c2 p2 ≤ 0)
    (hsz : 0 < bhSize c p)
    (hrest : noFailure rest)
    (hs : s.bought = true) :
    (bhRun initBH events).length ≤ 1 ∧
    bhRun initBH (pre ++ BHEvent.bar c p :: rest) = [bhSize c p] ∧
    bhRun s events = [] := by
  refine ⟨bhRun_length_le_one events initBH hev, ?_, bhRun_of_bought events s hs⟩
  rw [bhRun_skip_nonpos pre _ hpre]
  have hstep : bhStep initBH (BHEvent.bar c p)
      = ({ initBH with pendingOrder := true }, some (bhSize c p)) := by
    simp [bhStep, bhNext, initBH, hsz]
  simp only [bhRun, hstep]
  rw [bhRun_pending rest _ hrest rfl]

/-- Witness for C10: a failure-free one-bar trace with cash `100` and
price `1` (size `99`) submits exactly the order `[99]`, and from a state
with `bought = true` the same trace submits nothing. -/
theorem justBuyHold_spec_witness :
    (noFailure [BHEvent.bar 100 1] ∧ 0 < bhSize 100 1) ∧
      (bhRun initBH [BHEvent.bar 100 1]).length ≤ 1 ∧
      bhRun initBH [BHEvent.bar 100 1] = [bhSize 100 1] ∧
      bhRun ⟨false, true⟩ [BHEvent.bar 100 1] = [] := by
  have hnf : noFailure [BHEvent.bar 100 1] := by
    intro e he
    rcases List.mem_cons.mp he with rfl | he
    · intro hc
      exact BHEvent.noConfusion hc
    · simp at he
  have hsz : 0 < bhSize 100 1 := by
    norm_num [bhSize, truncQ]
  have h := justBuyHold_spec [BHEvent.bar 100 1] [] [] 100 1 ⟨false, true⟩
    hnf (by intro e he; simp at he) hsz (by intro e he; simp at he) rfl
  exact ⟨⟨hnf, hsz⟩, h.1, by simpa using h.2.1, h.2.2⟩
